import Mathlib

/-!
Verification of the layer-merging scripts of the
`mitre-attack-navigator-scripts` repository.

The two entry points `merge_layers.py` and `merge_navigator_layers.py`
share the same core: normalize the technique records of every loaded
layer, pop the last layer as the accumulator ("merged layer"), fold the
remaining layers into it technique by technique, run a post-merge pass
(force `showSubtechniques`, trim comments of enabled techniques, compute
the maximum enabled score and the disabled count), and overwrite the
display metadata (gradient, legend, layout, sorting).

Python values that may be `None` are embedded as `Option`; Python
truthiness tests (`if technique.score:`) are embedded by explicit
truthiness functions on those options.  Scores are embedded as `Int`.
-/

/-- A technique record of a Navigator layer: the fields the scripts read
or write (`techniqueID`, `score`, `comment`, `enabled`,
`showSubtechniques`, `color`).  `score`, `comment` and `enabled` may be
absent (`None` in Python) until the normalization pass fills them. -/
structure Technique where
  techniqueID : String
  score : Option Int
  comment : Option String
  enabled : Option Bool
  showSubtechniques : Bool
  color : String
deriving Repr, DecidableEq

/-- The gradient block of a layer (`colors`, `minValue`, `maxValue`). -/
structure Gradient where
  colors : List String
  minValue : Int
  maxValue : Int
deriving Repr, DecidableEq

/-- A legend entry (`LegendItem(label, color)`). -/
structure LegendItem where
  label : String
  color : String
deriving Repr, DecidableEq

/-- The layout block the scripts overwrite (`Layout()` with the flags the
scripts assign). -/
structure Layout where
  showAggregateScores : Bool
  aggregateFunction : String
  showID : Bool
  showName : Bool
  layout : String
  countUnscored : Bool
deriving Repr, DecidableEq

/-- A Navigator layer: the document fields the scripts read or write. -/
structure Layer where
  name : String
  description : String
  techniques : List Technique
  gradient : Gradient
  legendItems : List LegendItem
  layout : Layout
  sorting : Int
  hideDisabled : Bool
  expandSubtechniques : Bool
  selectTechniquesAcrossTactics : Bool
deriving Repr, DecidableEq

def defaultLayout : Layout :=
  { showAggregateScores := false, aggregateFunction := "", showID := false,
    showName := false, layout := "", countUnscored := false }

def defaultGradient : Gradient := { colors := [], minValue := 0, maxValue := 0 }

def defaultLayer : Layer :=
  { name := "", description := "", techniques := [], gradient := defaultGradient,
    legendItems := [], layout := defaultLayout, sorting := 0, hideDisabled := false,
    expandSubtechniques := false, selectTechniquesAcrossTactics := false }

/-! ### Python truthiness -/

/-- Truthiness of an optional numeric score: `None` and `0` are falsy. -/
def scoreTruthy : Option Int → Bool
  | none => false
  | some s => s != 0

/-- Truthiness of an optional string: `None` and `""` are falsy. -/
def commentTruthy : Option String → Bool
  | none => false
  | some c => c != ""

/-- Truthiness of an optional boolean: `None` and `False` are falsy. -/
def enabledTruthy : Option Bool → Bool
  | none => false
  | some b => b

/-! ### Technique Normalizer

`merge_layers.py` lines 60-67 and `merge_navigator_layers.py` lines
86-93: replace an absent score with `0`, an absent comment with `""`,
an absent enabled flag with `True`. -/

/-- Normalize one technique record: fill the three optional fields with
their defaults, keep every present value and every other field. -/
def normalizeTechnique (t : Technique) : Technique :=
  { t with
    score := match t.score with | none => some 0 | some s => some s
    comment := match t.comment with | none => some "" | some c => some c
    enabled := match t.enabled with | none => some true | some b => some b }

/-- Normalize every technique record of a layer. -/
def normalizeLayer (l : Layer) : Layer :=
  { l with techniques := l.techniques.map normalizeTechnique }

/-! ### Technique Merger

`merge_layers.py` lines 74-101 and `merge_navigator_layers.py` lines
100-127: for each incoming technique, look the id up in the merged
layer; if found, reconcile score / comment / enabled in place, otherwise
append the incoming record. -/

/-- Reconcile one incoming technique record into the matching
accumulator record, as the body of the merge loop does:
add a truthy incoming score, append a truthy incoming comment after a
blank line, and disable when the incoming record is explicitly
disabled (`enabled != None and not enabled`). -/
def mergeTechnique (acc inc : Technique) : Technique :=
  let acc1 := if scoreTruthy inc.score then
      { acc with score := some (acc.score.getD 0 + inc.score.getD 0) } else acc
  let acc2 := if commentTruthy inc.comment then
      { acc1 with comment := some (acc1.comment.getD "" ++ "\n\n" ++ inc.comment.getD "") }
    else acc1
  if inc.enabled = some false then { acc2 with enabled := some false } else acc2

/-- The function `find_technique_in_layer`: the first record of the list whose
`techniqueID` matches, if any. -/
def findTech (tid : String) : List Technique → Option Technique
  | [] => none
  | t :: ts => if t.techniqueID = tid then some t else findTech tid ts

/-- One iteration of the merge loop: reconcile the incoming record into
the first accumulator record with the same id, or append it when the id
is new to the accumulator. -/
def insertTechnique (inc : Technique) : List Technique → List Technique
  | [] => [inc]
  | t :: ts =>
    if t.techniqueID = inc.techniqueID then mergeTechnique t inc :: ts
    else t :: insertTechnique inc ts

/-- Fold one layer's technique list into the accumulator, record by
record in the layer's order. -/
def foldTechniques (acc incoming : List Technique) : List Technique :=
  incoming.foldl (fun a u => insertTechnique u a) acc

/-- Fold the technique lists of the remaining layers into the seed's
technique list, layer by layer in input order. -/
def mergeTechniqueLists (seed : List Technique) (rest : List (List Technique)) :
    List Technique :=
  rest.foldl foldTechniques seed

/-- The merge phase of both scripts, on the technique lists: normalize
every layer, take the last layer (`layers.pop()`) as the seed, and fold
the remaining layers into it in input order. -/
def mergePhase (layers : List Layer) : List Technique :=
  let normed := layers.map normalizeLayer
  mergeTechniqueLists (normed.getLastD defaultLayer).techniques
    (normed.dropLast.map Layer.techniques)

/-- The normalized seed layer (`merged_layer` right after the pop): the
last input layer, normalized.  Its non-technique fields survive until
the metadata pass overwrites them. -/
def seedOf (layers : List Layer) : Layer :=
  (layers.map normalizeLayer).getLastD defaultLayer

/-! ### Post-merge pass

`merge_layers.py` lines 103-115 and `merge_navigator_layers.py` lines
129-142.  The navigator variant additionally resets `color` to `""`.
The comment of an enabled technique is stripped (`str.strip`). -/

/-- Leading-whitespace removal, one side of Python `str.strip()`. -/
def dropLeadingWs : List Char → List Char
  | [] => []
  | c :: cs => if c.isWhitespace then dropLeadingWs cs else c :: cs

/-- Python `str.strip()`: remove leading and trailing whitespace. -/
def pyStrip (s : String) : String :=
  String.mk (dropLeadingWs (dropLeadingWs s.toList.reverse).reverse)

/-- The per-record mutations of the post-merge loop: force
`showSubtechniques := false`, reset `color` when the variant does,
and strip the comment of an enabled technique when it is truthy. -/
def postTechnique (resetColor : Bool) (t : Technique) : Technique :=
  let t1 := { t with showSubtechniques := false }
  let t2 := if resetColor then { t1 with color := "" } else t1
  if enabledTruthy t2.enabled then
    if commentTruthy t2.comment then
      { t2 with comment := some (pyStrip (t2.comment.getD "")) }
    else t2
  else t2

/-- The running state of the post-merge loop: the records processed so
far, the running maximum score, and the disabled counter. -/
structure PostResult where
  techniques : List Technique
  maxScore : Int
  disabledCount : Nat
deriving Repr, DecidableEq

/-- One iteration of the post-merge loop: mutate the record, then either
count it as disabled or fold its score into the running maximum. -/
def postStep (resetColor : Bool) (st : PostResult) (t : Technique) : PostResult :=
  let t1 := postTechnique resetColor t
  if enabledTruthy t.enabled then
    { techniques := st.techniques ++ [t1],
      maxScore := if t.score.getD 0 > st.maxScore then t.score.getD 0 else st.maxScore,
      disabledCount := st.disabledCount }
  else
    { techniques := st.techniques ++ [t1],
      maxScore := st.maxScore,
      disabledCount := st.disabledCount + 1 }

/-- The whole post-merge pass, starting the maximum at the variant's
seed (`1` in `merge_layers.py`, `0` in `merge_navigator_layers.py`). -/
def postProcess (resetColor : Bool) (initMax : Int) (ts : List Technique) : PostResult :=
  ts.foldl (postStep resetColor) ⟨[], initMax, 0⟩

/-! ### Metadata Aggregator

`merge_layers.py` lines 117-137 and `merge_navigator_layers.py` lines
144-164: overwrite the display metadata of the merged layer. -/

/-- Python `", ".join(...)`. -/
def joinComma : List String → String
  | [] => ""
  | [x] => x
  | x :: xs => x ++ ", " ++ joinComma xs

/-- The metadata assignments shared by both scripts: display flags,
layout block, sorting, gradient and the two legend entries. -/
def setCommonMetadata (l : Layer) (maxScore : Int) : Layer :=
  { l with
    hideDisabled := true
    expandSubtechniques := false
    selectTechniquesAcrossTactics := true
    layout := { showAggregateScores := true, aggregateFunction := "max",
                showID := false, showName := true, layout := "flat",
                countUnscored := false }
    sorting := 3
    gradient := { colors := ["#ffffff00", "#ff6666ff"], minValue := 0,
                  maxValue := maxScore }
    legendItems := [{ label := "La plus fréquente", color := "#ff6666ff" },
                    { label := "La moins fréquente", color := "#ffffff00" }] }

/-- The metadata pass of `merge_layers.py`: fixed name, description from
the joined source labels. -/
def mergeLayersMetadata (l : Layer) (names : List String) (maxScore : Int) : Layer :=
  setCommonMetadata
    { l with
      description := "ATT&CK Techniques used by " ++ pyStrip (joinComma names)
      name := "Matrix of aggregated techniques" }
    maxScore

/-- The metadata pass of `merge_navigator_layers.py`: count-based name,
description restating the maximum score. -/
def navigatorMetadata (l : Layer) (names : List String) (numLayers : Nat)
    (maxScore : Int) : Layer :=
  setCommonMetadata
    { l with
      description := "ATT&CK Techniques used by " ++ pyStrip (joinComma names)
        ++ ". Maximum score is " ++ toString maxScore
      name := toString numLayers ++ " layers merged" }
    maxScore

/-! ### The two merge pipelines -/

/-- The outcome of one merge run: the merged layer, the final maximum
score, and the number of disabled techniques. -/
structure MergeRunResult where
  layer : Layer
  maxScore : Int
  disabledCount : Nat
deriving Repr, DecidableEq

/-- Placeholder outcome used with `Option.getD` in statements. -/
def noResult : MergeRunResult :=
  { layer := defaultLayer, maxScore := 0, disabledCount := 0 }

/-- The merge pipeline of `merge_layers.py` (per path): normalize, seed
with the last layer, fold, post-process with maximum seeded at `1` and
no color reset, overwrite metadata.  `none` when no layer was imported
(the script skips the path). -/
def runMergeLayers (names : List String) (layers : List Layer) :
    Option MergeRunResult :=
  match layers with
  | [] => none
  | _ :: _ =>
    let post := postProcess false 1 (mergePhase layers)
    some { layer := mergeLayersMetadata
             { seedOf layers with techniques := post.techniques } names post.maxScore
           maxScore := post.maxScore
           disabledCount := post.disabledCount }

/-- The merge pipeline of `merge_navigator_layers.py`: identical fold,
but the maximum is seeded at `0` and every record's `color` is reset.
`none` when no layer was imported (the script prints "Nothing to do"). -/
def runMergeNavigator (names : List String) (layers : List Layer) :
    Option MergeRunResult :=
  match layers with
  | [] => none
  | _ :: _ =>
    let post := postProcess true 0 (mergePhase layers)
    some { layer := navigatorMetadata
             { seedOf layers with techniques := post.techniques } names
             layers.length post.maxScore
           maxScore := post.maxScore
           disabledCount := post.disabledCount }

/-! ### Source Naming Resolver

`merge_layers.py` lines 45-50: `re.search("[A-Z][0-9]{4}",
layer.description)`, falling back to the last path component of the
file path (extension kept).  `merge_navigator_layers.py` lines 19-24
(`get_layer_name`): `re.search("\([A-Z][0-9]{4}\)", layer.name)` with
the parentheses stripped, falling back to the given label. -/

def isUpperAZ (c : Char) : Bool := 'A' ≤ c && c ≤ 'Z'

def isDigit09 (c : Char) : Bool := '0' ≤ c && c ≤ '9'

/-- Match the regex `[A-Z][0-9]{4}` at the head of the character list. -/
def idMatchAt : List Char → Option (List Char)
  | c :: d1 :: d2 :: d3 :: d4 :: _ =>
    if isUpperAZ c && isDigit09 d1 && isDigit09 d2 && isDigit09 d3 && isDigit09 d4
    then some [c, d1, d2, d3, d4] else none
  | _ => none

/-- Python `re.search("[A-Z][0-9]{4}", s)`: the leftmost match, if any. -/
def searchId : List Char → Option (List Char)
  | [] => none
  | c :: rest =>
    match idMatchAt (c :: rest) with
    | some m => some m
    | none => searchId rest

/-- Match the regex `\([A-Z][0-9]{4}\)` at the head of the character
list, returning the five characters inside the parentheses (the
script strips them with `.strip("()")`). -/
def parenMatchAt : List Char → Option (List Char)
  | o :: c :: d1 :: d2 :: d3 :: d4 :: p :: _ =>
    if o = '(' && isUpperAZ c && isDigit09 d1 && isDigit09 d2 && isDigit09 d3
        && isDigit09 d4 && p = ')'
    then some [c, d1, d2, d3, d4] else none
  | _ => none

/-- Python `re.search("\([A-Z][0-9]{4}\)", s)`, parentheses stripped. -/
def searchParenId : List Char → Option (List Char)
  | [] => none
  | c :: rest =>
    match parenMatchAt (c :: rest) with
    | some m => some m
    | none => searchParenId rest

/-- Python `path.replace('\\', '/')` for the single-character pattern. -/
def toSlashes (s : String) : String :=
  String.mk (s.toList.map (fun c => if c = '\\' then '/' else c))

/-- Python `s.split('/')`: split at every separator, keeping empty
pieces. -/
def splitOnChar (sep : Char) : List Char → List (List Char)
  | [] => [[]]
  | c :: cs =>
    let r := splitOnChar sep cs
    if c = sep then [] :: r
    else match r with
      | [] => [[c]]
      | g :: gs => (c :: g) :: gs

/-- Python `json_file_path.replace('\\', '/').split('/')[-1]`: the last path
component, extension included. -/
def baseName (path : String) : String :=
  String.mk ((splitOnChar '/' (toSlashes path).toList).getLastD [])

/-- The inline name extraction of `merge_layers.py` lines 45-50:
search the layer's description for `[A-Z][0-9]{4}`; on failure
(`AttributeError` from `.group` on `None`), fall back to the file's
base name, extension included. -/
def extractLayerName (l : Layer) (jsonFilePath : String) : String :=
  match searchId l.description.toList with
  | some m => String.mk m
  | none => baseName jsonFilePath

/-- The function `get_layer_name` of `merge_navigator_layers.py` lines 19-24:
search the layer's name for `\([A-Z][0-9]{4}\)` and strip the
parentheses; on failure, return the given label unchanged. -/
def getLayerName (l : Layer) (fileName : String) : String :=
  match searchParenId l.name.toList with
  | some m => String.mk m
  | none => fileName

/-! ### Derived notions used by the statements -/

/-- The technique identifiers of a record list, in order. -/
def idsOf (ts : List Technique) : List String := ts.map Technique.techniqueID

/-- The maximum-score fold of the post-merge loop, in isolation:
`if score > m then score else m` over a record list. -/
def maxFold (init : Int) (ts : List Technique) : Int :=
  ts.foldl (fun m t => if t.score.getD 0 > m then t.score.getD 0 else m) init

/-- The fields of a record that the two merge variants treat
identically: everything but `color`. -/
def techProj (t : Technique) : String × Option Int × Option String × Option Bool × Bool :=
  (t.techniqueID, t.score, t.comment, t.enabled, t.showSubtechniques)

/-- The shape matched by the identifier regex: an uppercase letter
followed by exactly four digits. -/
def idShape (m : List Char) : Prop :=
  ∃ c d1 d2 d3 d4, m = [c, d1, d2, d3, d4] ∧ isUpperAZ c = true ∧
    isDigit09 d1 = true ∧ isDigit09 d2 = true ∧ isDigit09 d3 = true ∧
    isDigit09 d4 = true

/-- The list `xs` occurs contiguously inside `ys`. -/
def hasSeg (xs ys : List Char) : Prop := ∃ p q, ys = p ++ xs ++ q

/-! ## Helper lemmas -/

theorem mergeTechnique_techniqueID (a b : Technique) :
    (mergeTechnique a b).techniqueID = a.techniqueID := by
  unfold mergeTechnique
  split <;> split <;> split <;> rfl

theorem mergeTechnique_score (a b : Technique) :
    (mergeTechnique a b).score =
      if scoreTruthy b.score then some (a.score.getD 0 + b.score.getD 0)
      else a.score := by
  unfold mergeTechnique
  split <;> split <;> split <;> rfl

theorem mergeTechnique_enabled (a b : Technique) :
    (mergeTechnique a b).enabled =
      if b.enabled = some false then some false else a.enabled := by
  unfold mergeTechnique
  split <;> split <;> split <;> rfl

theorem mergeTechnique_comment (a b : Technique) :
    (mergeTechnique a b).comment =
      if commentTruthy b.comment then
        some ((if scoreTruthy b.score then
            { a with score := some (a.score.getD 0 + b.score.getD 0) }
          else a).comment.getD "" ++ "\n\n" ++ b.comment.getD "")
      else a.comment := by
  unfold mergeTechnique
  split <;> split <;> split <;> rfl

theorem normalizeTechnique_techniqueID (t : Technique) :
    (normalizeTechnique t).techniqueID = t.techniqueID := rfl

theorem normalizeTechnique_score (t : Technique) :
    (normalizeTechnique t).score = some (t.score.getD 0) := by
  unfold normalizeTechnique
  cases t.score <;> rfl

theorem normalizeTechnique_comment (t : Technique) :
    (normalizeTechnique t).comment = some (t.comment.getD "") := by
  unfold normalizeTechnique
  cases t.comment <;> rfl

theorem normalizeTechnique_enabled (t : Technique) :
    (normalizeTechnique t).enabled = some (t.enabled.getD true) := by
  unfold normalizeTechnique
  cases t.enabled <;> rfl

theorem postTechnique_techniqueID (r : Bool) (t : Technique) :
    (postTechnique r t).techniqueID = t.techniqueID := by
  dsimp only [postTechnique]
  split_ifs <;> rfl

theorem postTechnique_score (r : Bool) (t : Technique) :
    (postTechnique r t).score = t.score := by
  dsimp only [postTechnique]
  split_ifs <;> rfl

theorem postTechnique_enabled (r : Bool) (t : Technique) :
    (postTechnique r t).enabled = t.enabled := by
  dsimp only [postTechnique]
  split_ifs <;> rfl

theorem findTech_mem_id {tid : String} {ts : List Technique} {v : Technique}
    (h : findTech tid ts = some v) : v ∈ ts ∧ v.techniqueID = tid := by
  induction ts with
  | nil => simp [findTech] at h
  | cons t ts ih =>
    rw [findTech] at h
    split at h
    · cases h
      exact ⟨List.mem_cons_self _ _, by assumption⟩
    · rcases ih h with ⟨hm, hi⟩
      exact ⟨List.mem_cons_of_mem _ hm, hi⟩

theorem findTech_eq_none {tid : String} {ts : List Technique} :
    findTech tid ts = none ↔ ∀ u ∈ ts, u.techniqueID ≠ tid := by
  induction ts with
  | nil => simp [findTech]
  | cons t ts ih =>
    rw [findTech]
    split
    · constructor
      · intro h
        exact Option.noConfusion h
      · intro hc
        exact absurd (by assumption) (hc t (List.mem_cons_self _ _))
    · rw [ih]
      constructor
      · intro h u hu
        rcases List.mem_cons.mp hu with rfl | hu
        · assumption
        · exact h u hu
      · intro h u hu
        exact h u (List.mem_cons_of_mem _ hu)

theorem findTech_append_left {tid : String} {p : List Technique}
    (hp : ∀ u ∈ p, u.techniqueID ≠ tid) (q : List Technique) :
    findTech tid (p ++ q) = findTech tid q := by
  induction p with
  | nil => rfl
  | cons t p ih =>
    rw [List.cons_append, findTech]
    split
    · exact absurd (by assumption) (hp t (List.mem_cons_self _ _))
    · exact ih (fun u hu => hp u (List.mem_cons_of_mem _ hu))

theorem findTech_cons_self {t : Technique} {tid : String} (h : t.techniqueID = tid)
    (ts : List Technique) : findTech tid (t :: ts) = some t := by
  rw [findTech, if_pos h]

/-- Inserting a record with a different id never changes what a lookup
of `tid` returns. -/
theorem insertTechnique_findTech_ne {tid : String} {u : Technique}
    (hne : u.techniqueID ≠ tid) (ts : List Technique) :
    findTech tid (insertTechnique u ts) = findTech tid ts := by
  induction ts with
  | nil => simp [insertTechnique, findTech, hne]
  | cons t ts ih =>
    rw [insertTechnique]
    split
    · have ht : ¬ t.techniqueID = tid := fun h =>
        hne ((by assumption : t.techniqueID = u.techniqueID).symm.trans h)
      rw [findTech, mergeTechnique_techniqueID, if_neg ht, findTech, if_neg ht]
    · rw [findTech, findTech]
      split
      · rfl
      · exact ih

/-- Inserting a record whose id is already present reconciles it into
the first record carrying that id. -/
theorem insertTechnique_findTech_found {tid : String} {u v : Technique}
    (hu : u.techniqueID = tid) {ts : List Technique} (hf : findTech tid ts = some v) :
    findTech tid (insertTechnique u ts) = some (mergeTechnique v u) := by
  induction ts with
  | nil => simp [findTech] at hf
  | cons t ts ih =>
    rw [findTech] at hf
    rw [insertTechnique]
    split
    · have : t.techniqueID = tid := by
        rw [← hu]; assumption
      rw [if_pos this] at hf
      cases hf
      rw [findTech, mergeTechnique_techniqueID, if_pos this]
    · have hne : ¬ t.techniqueID = tid := by
        intro h; exact (by assumption : ¬ t.techniqueID = u.techniqueID) (h.trans hu.symm)
      rw [if_neg hne] at hf
      rw [findTech, if_neg hne]
      exact ih hf

/-- Inserting a record whose id is new appends it, so a lookup now finds
it. -/
theorem insertTechnique_findTech_new {tid : String} {u : Technique}
    (hu : u.techniqueID = tid) {ts : List Technique} (hf : findTech tid ts = none) :
    findTech tid (insertTechnique u ts) = some u := by
  induction ts with
  | nil => rw [insertTechnique, findTech, if_pos hu]
  | cons t ts ih =>
    rw [findTech] at hf
    split at hf
    · cases hf
    · rw [insertTechnique]
      split
      · exact absurd ((by assumption : t.techniqueID = u.techniqueID).trans hu)
          (by assumption)
      · rw [findTech, if_neg (by assumption)]
        exact ih hf

theorem foldTechniques_nil (acc : List Technique) : foldTechniques acc [] = acc := rfl

theorem foldTechniques_cons (acc : List Technique) (u : Technique) (l : List Technique) :
    foldTechniques acc (u :: l) = foldTechniques (insertTechnique u acc) l := rfl

theorem foldTechniques_append (acc p q : List Technique) :
    foldTechniques acc (p ++ q) = foldTechniques (foldTechniques acc p) q :=
  List.foldl_append _ _ _ _

theorem mergeTechniqueLists_nil (seed : List Technique) :
    mergeTechniqueLists seed [] = seed := rfl

theorem mergeTechniqueLists_cons (seed : List Technique) (l : List Technique)
    (rest : List (List Technique)) :
    mergeTechniqueLists seed (l :: rest) =
      mergeTechniqueLists (foldTechniques seed l) rest := rfl

/-- Folding a layer none of whose records carries `tid` leaves the
lookup of `tid` untouched. -/
theorem foldTechniques_findTech_ne {tid : String} {l : List Technique}
    (hl : ∀ u ∈ l, u.techniqueID ≠ tid) (acc : List Technique) :
    findTech tid (foldTechniques acc l) = findTech tid acc := by
  induction l generalizing acc with
  | nil => rfl
  | cons u l ih =>
    rw [foldTechniques_cons,
      ih (fun w hw => hl w (List.mem_cons_of_mem _ hw)),
      insertTechnique_findTech_ne (hl u (List.mem_cons_self _ _)) acc]

/-- Once the first record with id `tid` is disabled, folding any further
records keeps it disabled. -/
theorem foldTechniques_keep_disabled {tid : String} {l acc : List Technique}
    (h : (findTech tid acc).map Technique.enabled = some (some false)) :
    (findTech tid (foldTechniques acc l)).map Technique.enabled = some (some false) := by
  induction l generalizing acc with
  | nil => exact h
  | cons u l ih =>
    rw [foldTechniques_cons]
    apply ih
    by_cases hu : u.techniqueID = tid
    · rcases hv : findTech tid acc with _ | v
      · rw [hv] at h; cases h
      · rw [insertTechnique_findTech_found hu hv, Option.map_some',
          mergeTechnique_enabled]
        rw [hv, Option.map_some'] at h
        rw [Option.some.inj h]
        split <;> rfl
    · rw [insertTechnique_findTech_ne hu acc]
      exact h

/-- Inserting a record that is explicitly disabled leaves the first
record with its id disabled, whether it merges or is appended. -/
theorem insertTechnique_disabler {u : Technique} (hu : u.enabled = some false)
    (ts : List Technique) :
    (findTech u.techniqueID (insertTechnique u ts)).map Technique.enabled =
      some (some false) := by
  rcases hv : findTech u.techniqueID ts with _ | v
  · rw [insertTechnique_findTech_new rfl hv, Option.map_some', hu]
  · rw [insertTechnique_findTech_found rfl hv, Option.map_some',
      mergeTechnique_enabled, if_pos hu]

/-- Folding records that never add to the score of id `tid` (score `0`
or absent) leaves the score of the first record with that id
unchanged. -/
theorem foldTechniques_keep_score {tid : String} {l acc : List Technique} {v : Technique}
    (hzero : ∀ u ∈ l, u.techniqueID = tid → scoreTruthy u.score = false)
    (hv : findTech tid acc = some v) :
    (findTech tid (foldTechniques acc l)).map Technique.score = some v.score := by
  induction l generalizing acc v with
  | nil => rw [foldTechniques_nil, hv, Option.map_some']
  | cons u l ih =>
    rw [foldTechniques_cons]
    by_cases hu : u.techniqueID = tid
    · have hmerge := insertTechnique_findTech_found hu hv
      have := ih (fun w hw hwid => hzero w (List.mem_cons_of_mem _ hw) hwid) hmerge
      rw [this, mergeTechnique_score, hzero u (List.mem_cons_self _ _) hu]
      simp
    · exact ih (fun w hw hwid => hzero w (List.mem_cons_of_mem _ hw) hwid)
        (by rw [insertTechnique_findTech_ne hu acc]; exact hv)

/-- If every accumulator record is enabled and every incoming record is
enabled, every record after the fold is enabled. -/
theorem insertTechnique_all_enabled {u : Technique} {ts : List Technique}
    (hts : ∀ t ∈ ts, t.enabled = some true) (hu : u.enabled = some true) :
    ∀ t ∈ insertTechnique u ts, t.enabled = some true := by
  induction ts with
  | nil =>
    intro t ht
    rw [insertTechnique] at ht
    rcases List.mem_singleton.mp ht with rfl
    exact hu
  | cons s ts ih =>
    intro t ht
    rw [insertTechnique] at ht
    split at ht
    · rcases List.mem_cons.mp ht with rfl | ht
      · rw [mergeTechnique_enabled, hu]
        simp [hts s (List.mem_cons_self _ _)]
      · exact hts t (List.mem_cons_of_mem _ ht)
    · rcases List.mem_cons.mp ht with rfl | ht
      · exact hts t (List.mem_cons_self _ _)
      · exact ih (fun w hw => hts w (List.mem_cons_of_mem _ hw)) t ht

theorem foldTechniques_all_enabled {l acc : List Technique}
    (hacc : ∀ t ∈ acc, t.enabled = some true)
    (hl : ∀ u ∈ l, u.enabled = some true) :
    ∀ t ∈ foldTechniques acc l, t.enabled = some true := by
  induction l generalizing acc with
  | nil => exact hacc
  | cons u l ih =>
    rw [foldTechniques_cons]
    exact ih
      (insertTechnique_all_enabled hacc (hl u (List.mem_cons_self _ _)))
      (fun w hw => hl w (List.mem_cons_of_mem _ hw))

theorem idsOf_nil : idsOf [] = [] := rfl

theorem idsOf_cons (t : Technique) (ts : List Technique) :
    idsOf (t :: ts) = t.techniqueID :: idsOf ts := rfl

theorem idsOf_append (p q : List Technique) : idsOf (p ++ q) = idsOf p ++ idsOf q :=
  List.map_append _ _ _

theorem mem_idsOf {tid : String} {ts : List Technique} :
    tid ∈ idsOf ts ↔ ∃ u ∈ ts, u.techniqueID = tid := by
  unfold idsOf
  exact List.mem_map

theorem findTech_isSome_of_mem {tid : String} {ts : List Technique}
    (h : tid ∈ idsOf ts) : findTech tid ts ≠ none := by
  intro hnone
  rcases mem_idsOf.mp h with ⟨u, hu, hid⟩
  exact findTech_eq_none.mp hnone u hu hid

/-- A lookup in a list whose ids are distinct returns the member record
itself. -/
theorem findTech_of_nodup {ts : List Technique} {v : Technique}
    (hn : (idsOf ts).Nodup) (hm : v ∈ ts) : findTech v.techniqueID ts = some v := by
  induction ts with
  | nil => cases hm
  | cons t ts ih =>
    rw [idsOf_cons, List.nodup_cons] at hn
    rcases List.mem_cons.mp hm with rfl | hm
    · exact findTech_cons_self rfl ts
    · rw [findTech]
      split
    
      · exact absurd ((by assumption : t.techniqueID = v.techniqueID) ▸
          mem_idsOf.mpr ⟨v, hm, rfl⟩) hn.1
      · exact ih hn.2 hm

/-- The ids after an insertion: unchanged when the id was present,
extended by the new id otherwise. -/
theorem insertTechnique_ids_found {u : Technique} {ts : List Technique} {v : Technique}
    (hv : findTech u.techniqueID ts = some v) :
    idsOf (insertTechnique u ts) = idsOf ts := by
  induction ts with
  | nil => cases hv
  | cons t ts ih =>
    rw [findTech] at hv
    rw [insertTechnique]
    split
    · rw [idsOf_cons, idsOf_cons, mergeTechnique_techniqueID]
    · rw [if_neg (fun h => (by assumption : ¬ t.techniqueID = u.techniqueID) h)] at hv
      rw [idsOf_cons, idsOf_cons, ih hv]

theorem insertTechnique_ids_new {u : Technique} {ts : List Technique}
    (hv : findTech u.techniqueID ts = none) :
    idsOf (insertTechnique u ts) = idsOf ts ++ [u.techniqueID] := by
  induction ts with
  | nil => rfl
  | cons t ts ih =>
    rw [findTech] at hv
    split at hv
    · cases hv
    · rw [insertTechnique, if_neg (by assumption), idsOf_cons, idsOf_cons,
        List.cons_append, ih hv]

theorem insertTechnique_nodup {u : Technique} {ts : List Technique}
    (hn : (idsOf ts).Nodup) : (idsOf (insertTechnique u ts)).Nodup := by
  rcases hv : findTech u.techniqueID ts with _ | v
  · rw [insertTechnique_ids_new hv]
    rw [List.nodup_append]
    refine ⟨hn, List.nodup_singleton _, ?_⟩
    intro a ha hb
    rcases List.mem_singleton.mp hb with rfl
    exact findTech_isSome_of_mem ha hv
  · rw [insertTechnique_ids_found hv]
    exact hn

theorem insertTechnique_ids_sub {u : Technique} {ts : List Technique} {tid : String}
    (h : tid ∈ idsOf (insertTechnique u ts)) :
    tid ∈ idsOf ts ∨ tid = u.techniqueID := by
  rcases hv : findTech u.techniqueID ts with _ | v
  · rw [insertTechnique_ids_new hv] at h
    rcases List.mem_append.mp h with h | h
    · exact Or.inl h
    · exact Or.inr (List.mem_singleton.mp h)
  · rw [insertTechnique_ids_found hv] at h
    exact Or.inl h

theorem insertTechnique_ids_super {u : Technique} {ts : List Technique} {tid : String}
    (h : tid ∈ idsOf ts) : tid ∈ idsOf (insertTechnique u ts) := by
  rcases hv : findTech u.techniqueID ts with _ | v
  · rw [insertTechnique_ids_new hv]
    exact List.mem_append_left _ h
  · rw [insertTechnique_ids_found hv]
    exact h

theorem insertTechnique_ids_self (u : Technique) (ts : List Technique) :
    u.techniqueID ∈ idsOf (insertTechnique u ts) := by
  rcases hv : findTech u.techniqueID ts with _ | v
  · rw [insertTechnique_ids_new hv]
    exact List.mem_append_right _ (List.mem_singleton_self _)
  · rw [insertTechnique_ids_found hv]
    rcases findTech_mem_id hv with ⟨hm, hid⟩
    rw [← hid]
    exact mem_idsOf.mpr ⟨v, hm, rfl⟩

theorem foldTechniques_nodup {l acc : List Technique} (hn : (idsOf acc).Nodup) :
    (idsOf (foldTechniques acc l)).Nodup := by
  induction l generalizing acc with
  | nil => exact hn
  | cons u l ih => exact ih (insertTechnique_nodup hn)

theorem foldTechniques_ids_super {l acc : List Technique} {tid : String}
    (h : tid ∈ idsOf acc) : tid ∈ idsOf (foldTechniques acc l) := by
  induction l generalizing acc with
  | nil => exact h
  | cons u l ih => exact ih (insertTechnique_ids_super h)

theorem foldTechniques_ids_adds {l acc : List Technique} {u : Technique}
    (hu : u ∈ l) : u.techniqueID ∈ idsOf (foldTechniques acc l) := by
  induction l generalizing acc with
  | nil => cases hu
  | cons w l ih =>
    rw [foldTechniques_cons]
    rcases List.mem_cons.mp hu with rfl | hu
    · exact foldTechniques_ids_super (insertTechnique_ids_self u acc)
    · exact ih hu

theorem foldTechniques_ids_sub {l acc : List Technique} {tid : String}
    (h : tid ∈ idsOf (foldTechniques acc l)) :
    tid ∈ idsOf acc ∨ ∃ u ∈ l, u.techniqueID = tid := by
  induction l generalizing acc with
  | nil => exact Or.inl h
  | cons u l ih =>
    rcases ih h with h | ⟨w, hw, rfl⟩
    · rcases insertTechnique_ids_sub h with h | rfl
      · exact Or.inl h
      · exact Or.inr ⟨u, List.mem_cons_self _ _, rfl⟩
    · exact Or.inr ⟨w, List.mem_cons_of_mem _ hw, rfl⟩

theorem mergeTechniqueLists_findTech_ne {tid : String} {rls : List (List Technique)}
    (h : ∀ l ∈ rls, ∀ u ∈ l, u.techniqueID ≠ tid) (seed : List Technique) :
    findTech tid (mergeTechniqueLists seed rls) = findTech tid seed := by
  induction rls generalizing seed with
  | nil => rfl
  | cons l rls ih =>
    rw [mergeTechniqueLists_cons,
      ih (fun w hw => h w (List.mem_cons_of_mem _ hw)),
      foldTechniques_findTech_ne (h l (List.mem_cons_self _ _)) seed]

theorem mergeTechniqueLists_keep_disabled {tid : String} {rls : List (List Technique)}
    {seed : List Technique}
    (h : (findTech tid seed).map Technique.enabled = some (some false)) :
    (findTech tid (mergeTechniqueLists seed rls)).map Technique.enabled =
      some (some false) := by
  induction rls generalizing seed with
  | nil => exact h
  | cons l rls ih =>
    rw [mergeTechniqueLists_cons]
    exact ih (foldTechniques_keep_disabled h)

theorem mergeTechniqueLists_all_enabled {rls : List (List Technique)}
    {seed : List Technique}
    (hseed : ∀ t ∈ seed, t.enabled = some true)
    (hrls : ∀ l ∈ rls, ∀ u ∈ l, u.enabled = some true) :
    ∀ t ∈ mergeTechniqueLists seed rls, t.enabled = some true := by
  induction rls generalizing seed with
  | nil => exact hseed
  | cons l rls ih =>
    rw [mergeTechniqueLists_cons]
    exact ih
      (foldTechniques_all_enabled hseed (hrls l (List.mem_cons_self _ _)))
      (fun w hw => hrls w (List.mem_cons_of_mem _ hw))

theorem mergeTechniqueLists_nodup {rls : List (List Technique)} {seed : List Technique}
    (hn : (idsOf seed).Nodup) : (idsOf (mergeTechniqueLists seed rls)).Nodup := by
  induction rls generalizing seed with
  | nil => exact hn
  | cons l rls ih =>
    rw [mergeTechniqueLists_cons]
    exact ih (foldTechniques_nodup hn)

theorem mergeTechniqueLists_ids_super {rls : List (List Technique)}
    {seed : List Technique} {tid : String} (h : tid ∈ idsOf seed) :
    tid ∈ idsOf (mergeTechniqueLists seed rls) := by
  induction rls generalizing seed with
  | nil => exact h
  | cons l rls ih =>
    rw [mergeTechniqueLists_cons]
    exact ih (foldTechniques_ids_super h)

theorem mergeTechniqueLists_ids_adds {rls : List (List Technique)}
    {seed l : List Technique} {u : Technique} (hl : l ∈ rls) (hu : u ∈ l) :
    u.techniqueID ∈ idsOf (mergeTechniqueLists seed rls) := by
  induction rls generalizing seed with
  | nil => cases hl
  | cons w rls ih =>
    rw [mergeTechniqueLists_cons]
    rcases List.mem_cons.mp hl with rfl | hl
    · exact mergeTechniqueLists_ids_super (foldTechniques_ids_adds hu)
    · exact ih hl

theorem mergeTechniqueLists_ids_sub {rls : List (List Technique)}
    {seed : List Technique} {tid : String}
    (h : tid ∈ idsOf (mergeTechniqueLists seed rls)) :
    tid ∈ idsOf seed ∨ ∃ l ∈ rls, ∃ u ∈ l, u.techniqueID = tid := by
  induction rls generalizing seed with
  | nil => exact Or.inl h
  | cons l rls ih =>
    rw [mergeTechniqueLists_cons] at h
    rcases ih h with h | ⟨w, hw, hu⟩
    · rcases foldTechniques_ids_sub h with h | ⟨u, hu, rfl⟩
      · exact Or.inl h
      · exact Or.inr ⟨l, List.mem_cons_self _ _, u, hu, rfl⟩
    · exact Or.inr ⟨w, List.mem_cons_of_mem _ hw, hu⟩

/-- In a merge whose non-seed layers never mention `tid`, the lookup of
`tid` is decided by the seed alone. -/
theorem mergeTechniqueLists_single_seed {tid : String} {rls : List (List Technique)}
    {seed : List Technique} {t : Technique}
    (hseed : findTech tid seed = some t)
    (hrls : ∀ l ∈ rls, ∀ u ∈ l, u.techniqueID ≠ tid) :
    findTech tid (mergeTechniqueLists seed rls) = some t := by
  rw [mergeTechniqueLists_findTech_ne hrls seed]
  exact hseed

/-- In a merge where `tid` occurs in exactly one non-seed layer, and in
exactly one record `t` of it, the merged record for `tid` is `t`
itself, adopted unchanged. -/
theorem mergeTechniqueLists_single_rest {tid : String}
    {ra rb : List (List Technique)} {p q seed : List Technique} {t : Technique}
    (hseed : findTech tid seed = none)
    (hra : ∀ l ∈ ra, ∀ u ∈ l, u.techniqueID ≠ tid)
    (hp : ∀ u ∈ p, u.techniqueID ≠ tid)
    (ht : t.techniqueID = tid)
    (hq : ∀ u ∈ q, u.techniqueID ≠ tid)
    (hrb : ∀ l ∈ rb, ∀ u ∈ l, u.techniqueID ≠ tid) :
    findTech tid (mergeTechniqueLists seed (ra ++ (p ++ t :: q) :: rb)) = some t := by
  have h1 : mergeTechniqueLists seed (ra ++ (p ++ t :: q) :: rb) =
      mergeTechniqueLists (foldTechniques (mergeTechniqueLists seed ra) (p ++ t :: q)) rb := by
    unfold mergeTechniqueLists
    rw [List.foldl_append]
    rfl
  rw [h1]
  rw [mergeTechniqueLists_findTech_ne hrb]
  have h2 : foldTechniques (mergeTechniqueLists seed ra) (p ++ t :: q) =
      foldTechniques (insertTechnique t (foldTechniques (mergeTechniqueLists seed ra) p))
        q := by
    rw [foldTechniques_append, foldTechniques_cons]
  rw [h2, foldTechniques_findTech_ne hq]
  have h3 : findTech tid (foldTechniques (mergeTechniqueLists seed ra) p) = none := by
    rw [foldTechniques_findTech_ne hp, mergeTechniqueLists_findTech_ne hra]
    exact hseed
  rw [← ht] at h3 ⊢
  exact insertTechnique_findTech_new rfl h3

theorem maxFold_nil (init : Int) : maxFold init [] = init := rfl

theorem maxFold_cons (init : Int) (t : Technique) (ts : List Technique) :
    maxFold init (t :: ts) =
      maxFold (if t.score.getD 0 > init then t.score.getD 0 else init) ts := rfl

/-- The post-merge loop decomposed: it maps `postTechnique` over the
records in order, folds the maximum over the enabled records, and
counts the disabled records. -/
theorem postProcess_foldl (r : Bool) (ts : List Technique) (st : PostResult) :
    ts.foldl (postStep r) st =
      { techniques := st.techniques ++ ts.map (postTechnique r),
        maxScore := maxFold st.maxScore (ts.filter fun u => enabledTruthy u.enabled),
        disabledCount :=
          st.disabledCount + (ts.filter fun u => !enabledTruthy u.enabled).length } := by
  induction ts generalizing st with
  | nil => simp [maxFold_nil]
  | cons t ts ih =>
    rw [List.foldl_cons, ih]
    unfold postStep
    rcases he : enabledTruthy t.enabled with _ | _
    · simp only [he, Bool.false_eq_true, if_false, List.filter_cons, Bool.not_false,
        if_pos]
      simp [he, List.append_assoc, Nat.add_assoc, Nat.add_comm 1]
    · simp only [he, if_true, List.filter_cons]
      simp [he, List.append_assoc, maxFold_cons]

theorem postProcess_eq (r : Bool) (initMax : Int) (ts : List Technique) :
    postProcess r initMax ts =
      { techniques := ts.map (postTechnique r),
        maxScore := maxFold initMax (ts.filter fun u => enabledTruthy u.enabled),
        disabledCount := (ts.filter fun u => !enabledTruthy u.enabled).length } := by
  unfold postProcess
  rw [postProcess_foldl]
  simp

theorem maxFold_init_le (ts : List Technique) (init : Int) :
    init ≤ maxFold init ts := by
  induction ts generalizing init with
  | nil => exact le_refl _
  | cons t ts ih =>
    rw [maxFold_cons]
    refine le_trans ?_ (ih _)
    split
    · exact le_of_lt (by assumption)
    · exact le_refl _

theorem maxFold_max_left (a b : Int) (ts : List Technique) :
    maxFold (max a b) ts = max a (maxFold b ts) := by
  induction ts generalizing b with
  | nil => rfl
  | cons t ts ih =>
    rw [maxFold_cons, maxFold_cons]
    have hstep : (if t.score.getD 0 > max a b then t.score.getD 0 else max a b) =
        max a (if t.score.getD 0 > b then t.score.getD 0 else b) := by
      rcases le_total a b with hab | hab <;>
        rcases le_or_lt (t.score.getD 0) b with hs | hs <;>
          simp [max_def] <;> omega
    rw [hstep, ih]

/-- Lookups commute with an id-preserving map over the records. -/
theorem findTech_map_post {tid : String} (r : Bool) (ts : List Technique) :
    findTech tid (ts.map (postTechnique r)) =
      (findTech tid ts).map (postTechnique r) := by
  induction ts with
  | nil => rfl
  | cons t ts ih =>
    rw [List.map_cons, findTech, findTech, postTechnique_techniqueID]
    split
    · rfl
    · exact ih

theorem idsOf_map_post (r : Bool) (ts : List Technique) :
    idsOf (ts.map (postTechnique r)) = idsOf ts := by
  induction ts with
  | nil => rfl
  | cons t ts ih =>
    rw [List.map_cons, idsOf_cons, idsOf_cons, postTechnique_techniqueID, ih]

theorem idsOf_map_normalize (ts : List Technique) :
    idsOf (ts.map normalizeTechnique) = idsOf ts := by
  induction ts with
  | nil => rfl
  | cons t ts ih =>
    rw [List.map_cons, idsOf_cons, idsOf_cons, normalizeTechnique_techniqueID, ih]

theorem getLastD_mem {α : Type} {ls : List α} (h : ls ≠ []) (d : α) :
    ls.getLastD d ∈ ls := by
  induction ls with
  | nil => exact absurd rfl h
  | cons x ls ih =>
    rcases ls with _ | ⟨y, ls⟩
    · exact List.mem_singleton_self _
    · exact List.mem_cons_of_mem _ (ih (List.cons_ne_nil _ _))

theorem dropLast_mem {α : Type} {ls : List α} {x : α} (h : x ∈ ls.dropLast) :
    x ∈ ls := List.dropLast_subset _ h

/-- The run `runMergeLayers` on a non-empty input, unfolded. -/
theorem runMergeLayers_eq {names : List String} {layers : List Layer}
    (h : layers ≠ []) :
    runMergeLayers names layers =
      some { layer := mergeLayersMetadata
               { seedOf layers with
                 techniques := (postProcess false 1 (mergePhase layers)).techniques }
               names (postProcess false 1 (mergePhase layers)).maxScore
             maxScore := (postProcess false 1 (mergePhase layers)).maxScore
             disabledCount := (postProcess false 1 (mergePhase layers)).disabledCount } := by
  rcases layers with _ | ⟨l, ls⟩
  · exact absurd rfl h
  · rfl

/-- The run `runMergeNavigator` on a non-empty input, unfolded. -/
theorem runMergeNavigator_eq {names : List String} {layers : List Layer}
    (h : layers ≠ []) :
    runMergeNavigator names layers =
      some { layer := navigatorMetadata
               { seedOf layers with
                 techniques := (postProcess true 0 (mergePhase layers)).techniques }
               names layers.length (postProcess true 0 (mergePhase layers)).maxScore
             maxScore := (postProcess true 0 (mergePhase layers)).maxScore
             disabledCount := (postProcess true 0 (mergePhase layers)).disabledCount } := by
  rcases layers with _ | ⟨l, ls⟩
  · exact absurd rfl h
  · rfl

theorem map_normalize_idem (ts : List Technique) :
    (ts.map normalizeTechnique).map normalizeTechnique = ts.map normalizeTechnique := by
  induction ts with
  | nil => rfl
  | cons t ts ih =>
    rw [List.map_cons, List.map_cons, ih]
    have ht : normalizeTechnique (normalizeTechnique t) = normalizeTechnique t := by
      cases t with
      | mk tid sc cm en ss col => cases sc <;> cases cm <;> cases en <;> rfl
    rw [ht]

/-! ## Claims -/

/-- C7: the normalizer replaces an absent score with `0`, an absent
comment with the empty string and an absent enabled flag with `true`,
keeps every present value, touches no other field of any technique
record, and is idempotent on layers. -/
theorem claim_c7_normalizer :
    (∀ t : Technique, t.score = none → (normalizeTechnique t).score = some 0) ∧
    (∀ (t : Technique) (s : Int), t.score = some s → (normalizeTechnique t).score = some s) ∧
    (∀ t : Technique, t.comment = none → (normalizeTechnique t).comment = some "") ∧
    (∀ (t : Technique) (c : String), t.comment = some c →
      (normalizeTechnique t).comment = some c) ∧
    (∀ t : Technique, t.enabled = none → (normalizeTechnique t).enabled = some true) ∧
    (∀ (t : Technique) (b : Bool), t.enabled = some b →
      (normalizeTechnique t).enabled = some b) ∧
    (∀ t : Technique, (normalizeTechnique t).techniqueID = t.techniqueID ∧
      (normalizeTechnique t).showSubtechniques = t.showSubtechniques ∧
      (normalizeTechnique t).color = t.color) ∧
    (∀ l : Layer, normalizeLayer (normalizeLayer l) = normalizeLayer l) := by
  refine ⟨?_, ?_, ?_, ?_, ?_, ?_, ?_, ?_⟩
  · intro t h; rw [normalizeTechnique_score, h]; rfl
  · intro t s h; rw [normalizeTechnique_score, h]; rfl
  · intro t h; rw [normalizeTechnique_comment, h]; rfl
  · intro t c h; rw [normalizeTechnique_comment, h]; rfl
  · intro t h; rw [normalizeTechnique_enabled, h]; rfl
  · intro t b h; rw [normalizeTechnique_enabled, h]; rfl
  · intro t; exact ⟨rfl, rfl, rfl⟩
  · intro l
    cases l
    simp only [normalizeLayer]
    rw [map_normalize_idem]

/-- Witness for C7 at a concrete record with all three fields absent. -/
theorem claim_c7_normalizer_witness :
    (normalizeTechnique
      { techniqueID := "T1", score := none, comment := none, enabled := none,
        showSubtechniques := true, color := "c" }).score = some 0 :=
  claim_c7_normalizer.1
    { techniqueID := "T1", score := none, comment := none, enabled := none,
      showSubtechniques := true, color := "c" } rfl

theorem nodup_split {ts : List Technique} {v : Technique}
    (hn : (idsOf ts).Nodup) (hm : v ∈ ts) :
    ∃ p q, ts = p ++ v :: q ∧ (∀ u ∈ p, u.techniqueID ≠ v.techniqueID) ∧
      (∀ u ∈ q, u.techniqueID ≠ v.techniqueID) := by
  rcases List.append_of_mem hm with ⟨p, q, rfl⟩
  refine ⟨p, q, rfl, ?_, ?_⟩
  · intro u hu he
    rw [idsOf_append, idsOf_cons, List.nodup_append] at hn
    exact hn.2.2 (he ▸ mem_idsOf.mpr ⟨u, hu, rfl⟩) (List.mem_cons_self _ _)
  · intro u hu he
    rw [idsOf_append, idsOf_cons, List.nodup_append, List.nodup_cons] at hn
    exact hn.2.1.1 (he ▸ mem_idsOf.mpr ⟨u, hu, rfl⟩)

theorem mergeLayersMetadata_techniques (l : Layer) (names : List String) (m : Int) :
    (mergeLayersMetadata l names m).techniques = l.techniques := rfl

theorem navigatorMetadata_techniques (l : Layer) (names : List String) (n : Nat)
    (m : Int) : (navigatorMetadata l names n m).techniques = l.techniques := rfl

theorem scoreTruthy_of_ne {a : Int} (ha : a ≠ 0) : scoreTruthy (some a) = true := by
  simp [scoreTruthy, ha]

theorem runMergeLayers_techniques {names : List String} {ls : List Layer}
    (h : ls ≠ []) :
    ((runMergeLayers names ls).getD noResult).layer.techniques =
      (mergePhase ls).map (postTechnique false) := by
  rw [runMergeLayers_eq h]
  simp only [Option.getD_some, mergeLayersMetadata_techniques, postProcess_eq]

theorem runMergeNavigator_techniques {names : List String} {ls : List Layer}
    (h : ls ≠ []) :
    ((runMergeNavigator names ls).getD noResult).layer.techniques =
      (mergePhase ls).map (postTechnique true) := by
  rw [runMergeNavigator_eq h]
  simp only [Option.getD_some, navigatorMetadata_techniques, postProcess_eq]

theorem runMergeLayers_maxScore {names : List String} {ls : List Layer}
    (h : ls ≠ []) :
    ((runMergeLayers names ls).getD noResult).maxScore =
      maxFold 1 ((mergePhase ls).filter fun u => enabledTruthy u.enabled) := by
  rw [runMergeLayers_eq h]
  simp only [Option.getD_some, postProcess_eq]

theorem runMergeNavigator_maxScore {names : List String} {ls : List Layer}
    (h : ls ≠ []) :
    ((runMergeNavigator names ls).getD noResult).maxScore =
      maxFold 0 ((mergePhase ls).filter fun u => enabledTruthy u.enabled) := by
  rw [runMergeNavigator_eq h]
  simp only [Option.getD_some, postProcess_eq]

theorem runMergeLayers_disabledCount {names : List String} {ls : List Layer}
    (h : ls ≠ []) :
    ((runMergeLayers names ls).getD noResult).disabledCount =
      ((mergePhase ls).filter fun u => !enabledTruthy u.enabled).length := by
  rw [runMergeLayers_eq h]
  simp only [Option.getD_some, postProcess_eq]

theorem runMergeNavigator_disabledCount {names : List String} {ls : List Layer}
    (h : ls ≠ []) :
    ((runMergeNavigator names ls).getD noResult).disabledCount =
      ((mergePhase ls).filter fun u => !enabledTruthy u.enabled).length := by
  rw [runMergeNavigator_eq h]
  simp only [Option.getD_some, postProcess_eq]

/-- C1: when two normalized documents both score technique `T` with
non-zero scores `a` and `b`, the merged record for `T` scores `a + b`;
and a document whose record for `T` scores `0` never changes the
accumulator's score for `T`. -/
theorem claim_c1_score_addition :
    (∀ (names : List String) (A B : Layer) (T : String) (ta tb : Technique) (a b : Int),
      (idsOf A.techniques).Nodup → (idsOf B.techniques).Nodup →
      ta ∈ A.techniques → ta.techniqueID = T → ta.score = some a → a ≠ 0 →
      tb ∈ B.techniques → tb.techniqueID = T → tb.score = some b → b ≠ 0 →
      (findTech T ((runMergeLayers names [A, B]).getD noResult).layer.techniques).map
        Technique.score = some (some (a + b)) ∧
      (findTech T ((runMergeNavigator names [A, B]).getD noResult).layer.techniques).map
        Technique.score = some (some (a + b))) ∧
    (∀ (acc l : List Technique) (T : String) (v : Technique),
      findTech T acc = some v →
      (∀ u ∈ l, u.techniqueID = T → u.score = some 0) →
      (findTech T (foldTechniques acc l)).map Technique.score = some v.score) := by
  constructor
  · intro names A B T ta tb a b hnA hnB hta hidA hsa ha htb hidB hsb hb
    have hphase : mergePhase [A, B] =
        foldTechniques (normalizeLayer B).techniques (normalizeLayer A).techniques := rfl
    have hnA' : (idsOf (normalizeLayer A).techniques).Nodup := by
      show (idsOf (A.techniques.map normalizeTechnique)).Nodup
      rw [idsOf_map_normalize]; exact hnA
    have hnB' : (idsOf (normalizeLayer B).techniques).Nodup := by
      show (idsOf (B.techniques.map normalizeTechnique)).Nodup
      rw [idsOf_map_normalize]; exact hnB
    have hmB : normalizeTechnique tb ∈ (normalizeLayer B).techniques :=
      List.mem_map_of_mem _ htb
    have hfB : findTech T (normalizeLayer B).techniques = some (normalizeTechnique tb) := by
      have := findTech_of_nodup hnB' hmB
      rwa [normalizeTechnique_techniqueID, hidB] at this
    have hmA : normalizeTechnique ta ∈ (normalizeLayer A).techniques :=
      List.mem_map_of_mem _ hta
    rcases nodup_split hnA' hmA with ⟨p, q, hsplit, hp, hq⟩
    have hidA' : (normalizeTechnique ta).techniqueID = T := by
      rw [normalizeTechnique_techniqueID]; exact hidA
    have hp' : ∀ u ∈ p, u.techniqueID ≠ T := by
      intro u hu; rw [← hidA']; exact hp u hu
    have hq' : ∀ u ∈ q, u.techniqueID ≠ T := by
      intro u hu; rw [← hidA']; exact hq u hu
    have hfp : findTech T (foldTechniques (normalizeLayer B).techniques p) =
        some (normalizeTechnique tb) := by
      rw [foldTechniques_findTech_ne hp']; exact hfB
    have hins : findTech T (insertTechnique (normalizeTechnique ta)
        (foldTechniques (normalizeLayer B).techniques p)) =
        some (mergeTechnique (normalizeTechnique tb) (normalizeTechnique ta)) :=
      insertTechnique_findTech_found hidA' hfp
    have hfind : findTech T (mergePhase [A, B]) =
        some (mergeTechnique (normalizeTechnique tb) (normalizeTechnique ta)) := by
      rw [hphase, hsplit, foldTechniques_append, foldTechniques_cons,
        foldTechniques_findTech_ne hq', hins]
    have hsta : (normalizeTechnique ta).score = some a := by
      rw [normalizeTechnique_score, hsa]; rfl
    have hstb : (normalizeTechnique tb).score = some b := by
      rw [normalizeTechnique_score, hsb]; rfl
    have hscore : (mergeTechnique (normalizeTechnique tb) (normalizeTechnique ta)).score =
        some (a + b) := by
      rw [mergeTechnique_score, hsta, hstb, if_pos (scoreTruthy_of_ne ha)]
      simp [Int.add_comm b a]
    constructor
    · rw [runMergeLayers_techniques (List.cons_ne_nil _ _), findTech_map_post, hfind,
        Option.map_some', Option.map_some', postTechnique_score, hscore]
    · rw [runMergeNavigator_techniques (List.cons_ne_nil _ _), findTech_map_post, hfind,
        Option.map_some', Option.map_some', postTechnique_score, hscore]
  · intro acc l T v hv hzero
    refine foldTechniques_keep_score ?_ hv
    intro u hu hid
    rw [hzero u hu hid]
    rfl

def c1ta : Technique :=
  { techniqueID := "T1", score := some 5, comment := some "x", enabled := some true,
    showSubtechniques := true, color := "c" }

def c1tb : Technique :=
  { techniqueID := "T1", score := some 3, comment := some "y", enabled := some true,
    showSubtechniques := true, color := "c" }

def c1A : Layer := { defaultLayer with techniques := [c1ta] }

def c1B : Layer := { defaultLayer with techniques := [c1tb] }

/-- Witness for C1: two one-technique layers scoring `T1` with 5 and 3
merge to score 8. -/
theorem claim_c1_score_addition_witness :
    (findTech "T1" ((runMergeLayers ["L"] [c1A, c1B]).getD noResult).layer.techniques).map
      Technique.score = some (some (5 + 3)) :=
  (claim_c1_score_addition.1 ["L"] c1A c1B "T1" c1ta c1tb 5 3
    (by decide) (by decide) (by decide) rfl rfl (by decide)
    (by decide) rfl rfl (by decide)).1

theorem normalized_enabled_true {u : Technique} (h : u.enabled ≠ some false) :
    (normalizeTechnique u).enabled = some true := by
  rw [normalizeTechnique_enabled]
  rcases hu : u.enabled with _ | b
  · rfl
  · cases b
    · exact absurd hu h
    · rfl

/-- A disabled record anywhere in the non-seed part of the fold leaves
the merged record for its id disabled, whatever else is folded. -/
theorem mergeTechniqueLists_disabler {T : String} {seed : List Technique}
    {la lb : List (List Technique)} {p q : List Technique} {u : Technique}
    (hid : u.techniqueID = T) (hen : u.enabled = some false) :
    (findTech T (mergeTechniqueLists seed (la ++ (p ++ u :: q) :: lb))).map
      Technique.enabled = some (some false) := by
  have h1 : mergeTechniqueLists seed (la ++ (p ++ u :: q) :: lb) =
      mergeTechniqueLists (foldTechniques (mergeTechniqueLists seed la) (p ++ u :: q))
        lb := by
    unfold mergeTechniqueLists
    rw [List.foldl_append]
    rfl
  rw [h1]
  apply mergeTechniqueLists_keep_disabled
  rw [foldTechniques_append, foldTechniques_cons]
  apply foldTechniques_keep_disabled
  rw [← hid]
  exact insertTechnique_disabler hen _

theorem mergePhase_concat (ls : List Layer) (z : Layer) :
    mergePhase (ls ++ [z]) = mergeTechniqueLists (normalizeLayer z).techniques
      ((ls.map normalizeLayer).map Layer.techniques) := by
  unfold mergePhase
  rw [List.map_append]
  simp [List.getLastD_concat, List.dropLast_concat]

theorem post_map_enabled {T : String} {ts : List Technique} (r : Bool)
    (h : (findTech T ts).map Technique.enabled = some (some false)) :
    (findTech T (ts.map (postTechnique r))).map Technique.enabled =
      some (some false) := by
  rw [findTech_map_post, Option.map_map]
  have hcomp : (Technique.enabled ∘ postTechnique r) = fun t => t.enabled := by
    funext t
    exact postTechnique_enabled r t
  rw [hcomp]
  exact h

/-- Core of C2 on the merge phase: a document that disables `T`
disables the merged record for `T`. -/
theorem mergePhase_disabled {ls : List Layer} {T : String}
    (hU : ∀ l ∈ ls, (idsOf l.techniques).Nodup)
    (hdis : ∃ l ∈ ls, ∃ u ∈ l.techniques, u.techniqueID = T ∧ u.enabled = some false) :
    (findTech T (mergePhase ls)).map Technique.enabled = some (some false) := by
  rcases hdis with ⟨ld, hld, u, hu, hidu, henu⟩
  rcases List.append_of_mem hld with ⟨xs, ys, rfl⟩
  have hnid : (normalizeTechnique u).techniqueID = T := by
    rw [normalizeTechnique_techniqueID]; exact hidu
  have hnen : (normalizeTechnique u).enabled = some false := by
    rw [normalizeTechnique_enabled, henu]; rfl
  rcases List.eq_nil_or_concat ys with rfl | ⟨za, z, rfl⟩
  · rw [show xs ++ [ld] = xs ++ [ld] from rfl, mergePhase_concat]
    apply mergeTechniqueLists_keep_disabled
    have hnod : (idsOf (normalizeLayer ld).techniques).Nodup := by
      show (idsOf (ld.techniques.map normalizeTechnique)).Nodup
      rw [idsOf_map_normalize]
      exact hU ld (List.mem_append_right _ (List.mem_singleton_self _))
    have hmem : normalizeTechnique u ∈ (normalizeLayer ld).techniques :=
      List.mem_map_of_mem _ hu
    have := findTech_of_nodup hnod hmem
    rw [hnid] at this
    rw [this, Option.map_some', hnen]
  · have hls : xs ++ ld :: za.concat z = (xs ++ ld :: za) ++ [z] := by simp
    rw [hls, mergePhase_concat]
    have hrest : ((xs ++ ld :: za).map normalizeLayer).map Layer.techniques =
        (xs.map normalizeLayer).map Layer.techniques ++
          (normalizeLayer ld).techniques ::
            ((za.map normalizeLayer).map Layer.techniques) := by
      simp
    rw [hrest]
    rcases List.append_of_mem hu with ⟨dp, dq, hdec⟩
    have htechs : (normalizeLayer ld).techniques =
        dp.map normalizeTechnique ++ normalizeTechnique u :: dq.map normalizeTechnique := by
      show ld.techniques.map normalizeTechnique = _
      rw [hdec]
      simp
    rw [htechs]
    exact mergeTechniqueLists_disabler hnid hnen

/-- Core of C2b on the merge phase: if no document explicitly disables
anything, every merged record is enabled. -/
theorem mergePhase_all_enabled {ls : List Layer}
    (h : ∀ l ∈ ls, ∀ u ∈ l.techniques, u.enabled ≠ some false) :
    ∀ t ∈ mergePhase ls, t.enabled = some true := by
  rcases hnil : ls with _ | ⟨l0, ls'⟩
  · have hempty : mergePhase [] = [] := rfl
    rw [hempty]
    intro t ht
    cases ht
  · rw [← hnil]
    have hne : ls ≠ [] := by rw [hnil]; exact List.cons_ne_nil _ _
    refine mergeTechniqueLists_all_enabled ?_ ?_
    · intro t ht
      have hmem : (ls.map normalizeLayer).getLastD defaultLayer ∈ ls.map normalizeLayer :=
        getLastD_mem (by simp [hne]) _
      rcases List.mem_map.mp hmem with ⟨l, hl, heq⟩
      rw [← heq] at ht
      rcases List.mem_map.mp ht with ⟨w, hw, rfl⟩
      exact normalized_enabled_true (h l hl w hw)
    · intro tl htl w hw
      rcases List.mem_map.mp htl with ⟨l', hl', rfl⟩
      rcases List.mem_map.mp (dropLast_mem hl') with ⟨l, hl, rfl⟩
      rcases List.mem_map.mp hw with ⟨v, hv, rfl⟩
      exact normalized_enabled_true (h l hl v hv)

/-- C2: if any contributing document explicitly disables technique `T`,
the merged record for `T` is disabled, in both entry points and for
every fold order; and when no document explicitly disables, every
merged record is enabled (absent flags never disable). -/
theorem claim_c2_disable_monotonic :
    (∀ (names : List String) (ls : List Layer) (T : String),
      (∀ l ∈ ls, (idsOf l.techniques).Nodup) →
      (∃ l ∈ ls, ∃ u ∈ l.techniques, u.techniqueID = T ∧ u.enabled = some false) →
      (findTech T ((runMergeLayers names ls).getD noResult).layer.techniques).map
          Technique.enabled = some (some false) ∧
      (findTech T ((runMergeNavigator names ls).getD noResult).layer.techniques).map
          Technique.enabled = some (some false)) ∧
    (∀ (names : List String) (ls : List Layer),
      (∀ l ∈ ls, ∀ u ∈ l.techniques, u.enabled ≠ some false) →
      (∀ v ∈ ((runMergeLayers names ls).getD noResult).layer.techniques,
        v.enabled = some true) ∧
      (∀ v ∈ ((runMergeNavigator names ls).getD noResult).layer.techniques,
        v.enabled = some true)) := by
  constructor
  · intro names ls T hU hdis
    have hne : ls ≠ [] := by
      rcases hdis with ⟨l, hl, _⟩
      exact List.ne_nil_of_mem hl
    rw [runMergeLayers_techniques hne, runMergeNavigator_techniques hne]
    exact ⟨post_map_enabled false (mergePhase_disabled hU hdis),
      post_map_enabled true (mergePhase_disabled hU hdis)⟩
  · intro names ls h
    rcases hls : ls with _ | ⟨l0, ls'⟩
    · constructor <;> · intro v hv; cases hv
    · rw [← hls]
      have hne : ls ≠ [] := by rw [hls]; exact List.cons_ne_nil _ _
      rw [runMergeLayers_techniques hne, runMergeNavigator_techniques hne]
      constructor <;>
      · intro v hv
        rcases List.mem_map.mp hv with ⟨w, hw, rfl⟩
        rw [postTechnique_enabled]
        exact mergePhase_all_enabled h w hw

def c2tb : Technique :=
  { techniqueID := "T1", score := some 3, comment := some "y", enabled := some false,
    showSubtechniques := true, color := "c" }

def c2B : Layer := { defaultLayer with techniques := [c2tb] }

/-- Witness for C2: a layer that disables `T1` disables it in the merge
of both entry points, even though the other layer enables it. -/
theorem claim_c2_disable_monotonic_witness :
    (findTech "T1" ((runMergeLayers ["L"] [c2B, c1A]).getD noResult).layer.techniques).map
        Technique.enabled = some (some false) ∧
    (findTech "T1" ((runMergeNavigator ["L"] [c2B, c1A]).getD noResult).layer.techniques).map
        Technique.enabled = some (some false) :=
  claim_c2_disable_monotonic.1 ["L"] [c2B, c1A] "T1" (by decide)
    ⟨c2B, by decide, c2tb, by decide, rfl, rfl⟩

theorem getLastD_cons_irrel {α : Type} (d x y : α) (zs : List α) :
    (y :: zs).getLastD d = (y :: zs).getLastD x := by
  rw [List.getLastD_cons, List.getLastD_cons]

theorem mem_dropLast_or_getLastD {α : Type} (d : α) {zs : List α} {z : α}
    (h : z ∈ zs) : z ∈ zs.dropLast ∨ z = zs.getLastD d := by
  induction zs with
  | nil => cases h
  | cons x zs ih =>
    rcases zs with _ | ⟨y, zs'⟩
    · right
      rcases List.mem_singleton.mp h with rfl
      rfl
    · rcases List.mem_cons.mp h with rfl | h
      · left
        exact List.mem_cons_self _ _
      · rcases ih h with h | h
        · left
          rw [List.dropLast_cons₂]
          exact List.mem_cons_of_mem _ h
        · right
          rw [List.getLastD_cons, ← getLastD_cons_irrel d]
          exact h

theorem mergePhase_nodup {ls : List Layer}
    (hU : ∀ l ∈ ls, (idsOf l.techniques).Nodup) (hne : ls ≠ []) :
    (idsOf (mergePhase ls)).Nodup := by
  unfold mergePhase
  apply mergeTechniqueLists_nodup
  have hmem : (ls.map normalizeLayer).getLastD defaultLayer ∈ ls.map normalizeLayer :=
    getLastD_mem (by simp [hne]) _
  rcases List.mem_map.mp hmem with ⟨l, hl, heq⟩
  rw [← heq]
  show (idsOf (l.techniques.map normalizeTechnique)).Nodup
  rw [idsOf_map_normalize]
  exact hU l hl

theorem mergePhase_ids_iff {ls : List Layer} {T : String} (hne : ls ≠ []) :
    T ∈ idsOf (mergePhase ls) ↔ ∃ l ∈ ls, ∃ u ∈ l.techniques, u.techniqueID = T := by
  unfold mergePhase
  constructor
  · intro h
    rcases mergeTechniqueLists_ids_sub h with h | ⟨tl, htl, u, hu, rfl⟩
    · have hmem : (ls.map normalizeLayer).getLastD defaultLayer ∈ ls.map normalizeLayer :=
        getLastD_mem (by simp [hne]) _
      rcases List.mem_map.mp hmem with ⟨l, hl, heq⟩
      rw [← heq] at h
      have : T ∈ idsOf l.techniques := by
        have h2 : T ∈ idsOf (l.techniques.map normalizeTechnique) := h
        rwa [idsOf_map_normalize] at h2
      rcases mem_idsOf.mp this with ⟨u, hu, rfl⟩
      exact ⟨l, hl, u, hu, rfl⟩
    · rcases List.mem_map.mp htl with ⟨l', hl', rfl⟩
      rcases List.mem_map.mp (dropLast_mem hl') with ⟨l, hl, rfl⟩
      rcases List.mem_map.mp hu with ⟨v, hv, rfl⟩
      exact ⟨l, hl, v, hv, by rw [normalizeTechnique_techniqueID]⟩
  · rintro ⟨l, hl, u, hu, rfl⟩
    have hmemn : normalizeLayer l ∈ ls.map normalizeLayer := List.mem_map_of_mem _ hl
    have hnu : normalizeTechnique u ∈ (normalizeLayer l).techniques :=
      List.mem_map_of_mem _ hu
    rcases mem_dropLast_or_getLastD defaultLayer hmemn with h | h
    · have hmt : (normalizeLayer l).techniques ∈
          ((ls.map normalizeLayer).dropLast.map Layer.techniques) :=
        List.mem_map_of_mem _ h
      have h4 := @mergeTechniqueLists_ids_adds
        ((ls.map normalizeLayer).dropLast.map Layer.techniques)
        ((ls.map normalizeLayer).getLastD defaultLayer).techniques
        (normalizeLayer l).techniques (normalizeTechnique u) hmt hnu
      rwa [normalizeTechnique_techniqueID] at h4
    · apply mergeTechniqueLists_ids_super
      rw [← h]
      have h4 : (normalizeTechnique u).techniqueID ∈
          idsOf (normalizeLayer l).techniques :=
        mem_idsOf.mpr ⟨_, hnu, rfl⟩
      rwa [normalizeTechnique_techniqueID] at h4

/-- C8: with per-document unique identifiers, the merged output has
exactly one record per distinct identifier occurring in any input: its
identifier list is duplicate-free and holds exactly the input
identifiers.  Both entry points produce the same identifier lists. -/
theorem claim_c8_one_record_per_id :
    ∀ (names : List String) (ls : List Layer),
      (∀ l ∈ ls, (idsOf l.techniques).Nodup) → ls ≠ [] →
      (idsOf ((runMergeLayers names ls).getD noResult).layer.techniques).Nodup ∧
      (idsOf ((runMergeNavigator names ls).getD noResult).layer.techniques).Nodup ∧
      (∀ T : String,
        (T ∈ idsOf ((runMergeLayers names ls).getD noResult).layer.techniques ↔
          ∃ l ∈ ls, ∃ u ∈ l.techniques, u.techniqueID = T) ∧
        (T ∈ idsOf ((runMergeNavigator names ls).getD noResult).layer.techniques ↔
          ∃ l ∈ ls, ∃ u ∈ l.techniques, u.techniqueID = T)) := by
  intro names ls hU hne
  rw [runMergeLayers_techniques hne, runMergeNavigator_techniques hne,
    idsOf_map_post, idsOf_map_post]
  exact ⟨mergePhase_nodup hU hne, mergePhase_nodup hU hne,
    fun T => ⟨mergePhase_ids_iff hne, mergePhase_ids_iff hne⟩⟩

/-- Witness for C8 on two concrete layers with distinct and shared ids. -/
theorem claim_c8_one_record_per_id_witness :
    (idsOf ((runMergeLayers ["L"] [c1A, c2B]).getD noResult).layer.techniques).Nodup :=
  (claim_c8_one_record_per_id ["L"] [c1A, c2B] (by decide)
    (List.cons_ne_nil _ _)).1

/-- C5: the maximum score is folded only over the records left enabled
after the merge: the post-merge pass computes exactly the enabled-filter
fold, removing a disabled record never changes it, and both pipelines
report that fold (seeded at `1`, resp. `0`). -/
theorem claim_c5_max_enabled_only :
    (∀ (r : Bool) (init : Int) (ts : List Technique),
      (postProcess r init ts).maxScore =
        maxFold init (ts.filter fun u => enabledTruthy u.enabled)) ∧
    (∀ (r : Bool) (init : Int) (pre suf : List Technique) (t : Technique),
      enabledTruthy t.enabled = false →
      (postProcess r init (pre ++ t :: suf)).maxScore =
        (postProcess r init (pre ++ suf)).maxScore) ∧
    (∀ (names : List String) (ls : List Layer), ls ≠ [] →
      ((runMergeLayers names ls).getD noResult).maxScore =
        maxFold 1 ((mergePhase ls).filter fun u => enabledTruthy u.enabled) ∧
      ((runMergeNavigator names ls).getD noResult).maxScore =
        maxFold 0 ((mergePhase ls).filter fun u => enabledTruthy u.enabled)) := by
  refine ⟨?_, ?_, ?_⟩
  · intro r init ts
    rw [postProcess_eq]
  · intro r init pre suf t he
    rw [postProcess_eq, postProcess_eq]
    simp [List.filter_append, List.filter_cons, he]
  · intro names ls hne
    exact ⟨runMergeLayers_maxScore hne, runMergeNavigator_maxScore hne⟩

/-- Witness for C5: concrete pipeline maximum, and removing a concrete
disabled record leaves the post-merge maximum unchanged. -/
theorem claim_c5_max_enabled_only_witness :
    ((runMergeLayers ["L"] [c1A, c2B]).getD noResult).maxScore =
      maxFold 1 ((mergePhase [c1A, c2B]).filter fun u => enabledTruthy u.enabled) ∧
    (postProcess false 1 ([] ++ c2tb :: [])).maxScore =
      (postProcess false 1 ([] ++ [])).maxScore :=
  ⟨(claim_c5_max_enabled_only.2.2 ["L"] [c1A, c2B] (List.cons_ne_nil _ _)).1,
    claim_c5_max_enabled_only.2.1 false 1 [] [] c2tb rfl⟩

/-- Projection used to state counterexamples about the output gradient
without binders. -/
def gradientOf : Option MergeRunResult → Option Gradient
  | none => none
  | some r => some r.layer.gradient

/-- Counterexample to C6: the navigator entry point seeds the maximum
at `0`, so on a layer with no technique the output gradient has
`maxValue = 0 = minValue` — not strictly greater, refuting "the maximum
is never less than 1". -/
theorem claim_c6_gradient_counterexample :
    gradientOf (runMergeNavigator ["L"] [defaultLayer]) =
      some { colors := ["#ffffff00", "#ff6666ff"], minValue := 0, maxValue := 0 } := by
  rfl

/-- C6 (amended): both entry points emit the fixed two-stop gradient
(`minValue = 0`, `maxValue` the computed maximum) and exactly the two
legend entries, high color first; `minValue < maxValue` is guaranteed in
`merge_layers.py` (maximum seeded at `1`), while the navigator variant
only guarantees the maximum is non-negative. -/
theorem claim_c6_gradient_amended :
    ∀ (names : List String) (ls : List Layer), ls ≠ [] →
      (((runMergeLayers names ls).getD noResult).layer.gradient =
        { colors := ["#ffffff00", "#ff6666ff"], minValue := 0,
          maxValue := ((runMergeLayers names ls).getD noResult).maxScore } ∧
       ((runMergeLayers names ls).getD noResult).layer.legendItems =
        [{ label := "La plus fréquente", color := "#ff6666ff" },
         { label := "La moins fréquente", color := "#ffffff00" }] ∧
       1 ≤ ((runMergeLayers names ls).getD noResult).maxScore ∧
       ((runMergeLayers names ls).getD noResult).layer.gradient.minValue <
         ((runMergeLayers names ls).getD noResult).layer.gradient.maxValue) ∧
      (((runMergeNavigator names ls).getD noResult).layer.gradient =
        { colors := ["#ffffff00", "#ff6666ff"], minValue := 0,
          maxValue := ((runMergeNavigator names ls).getD noResult).maxScore } ∧
       ((runMergeNavigator names ls).getD noResult).layer.legendItems =
        [{ label := "La plus fréquente", color := "#ff6666ff" },
         { label := "La moins fréquente", color := "#ffffff00" }] ∧
       0 ≤ ((runMergeNavigator names ls).getD noResult).maxScore) := by
  intro names ls hne
  have hge1 : 1 ≤ ((runMergeLayers names ls).getD noResult).maxScore := by
    rw [runMergeLayers_maxScore hne]
    exact maxFold_init_le _ _
  have hge0 : 0 ≤ ((runMergeNavigator names ls).getD noResult).maxScore := by
    rw [runMergeNavigator_maxScore hne]
    exact maxFold_init_le _ _
  have hg1 : ((runMergeLayers names ls).getD noResult).layer.gradient =
      { colors := ["#ffffff00", "#ff6666ff"], minValue := 0,
        maxValue := ((runMergeLayers names ls).getD noResult).maxScore } := by
    rw [runMergeLayers_eq hne]
    rfl
  have hg2 : ((runMergeNavigator names ls).getD noResult).layer.gradient =
      { colors := ["#ffffff00", "#ff6666ff"], minValue := 0,
        maxValue := ((runMergeNavigator names ls).getD noResult).maxScore } := by
    rw [runMergeNavigator_eq hne]
    rfl
  refine ⟨⟨hg1, ?_, hge1, ?_⟩, hg2, ?_, hge0⟩
  · rw [runMergeLayers_eq hne]
    rfl
  · rw [hg1]
    exact lt_of_lt_of_le Int.zero_lt_one hge1
  · rw [runMergeNavigator_eq hne]
    rfl

/-- Witness for C6 (amended) on a concrete one-layer input. -/
theorem claim_c6_gradient_amended_witness :
    ((runMergeLayers ["L"] [c1A]).getD noResult).layer.gradient.minValue <
      ((runMergeLayers ["L"] [c1A]).getD noResult).layer.gradient.maxValue :=
  (claim_c6_gradient_amended ["L"] [c1A] (List.cons_ne_nil _ _)).1.2.2.2

def c3ta : Technique :=
  { techniqueID := "T1", score := some 1, comment := some "x", enabled := some true,
    showSubtechniques := false, color := "" }

def c3tb : Technique :=
  { techniqueID := "T1", score := some 1, comment := some "y", enabled := some true,
    showSubtechniques := false, color := "" }

def c3A : Layer := { defaultLayer with techniques := [c3ta] }

def c3B : Layer := { defaultLayer with techniques := [c3tb] }

/-- Counterexample to C3: with A carrying comment `"x"` and B comment
`"y"`, merging in input order `[A, B]` yields `"y\n\nx"`, not the
claimed `"x\n\ny"` — the seed is the *last* document, so its comment
comes first. -/
theorem claim_c3_comment_order_counterexample :
    (findTech "T1" ((runMergeLayers ["L"] [c3A, c3B]).getD noResult).layer.techniques).map
      Technique.comment = some (some "y\n\nx") ∧
    ¬ ((findTech "T1" ((runMergeLayers ["L"] [c3A, c3B]).getD noResult).layer.techniques).map
      Technique.comment = some (some "x\n\ny")) := by
  constructor
  · rfl
  · decide

/-- C3 (amended): comment concatenation is order-dependent the opposite
way round: input order `[A, B]` yields `"y\n\nx"` and `[B, A]` yields
`"x\n\ny"`, because the accumulator is popped from the end of the input
list and its comment precedes the appended ones.  Both entry points
agree. -/
theorem claim_c3_comment_order_amended :
    (findTech "T1" ((runMergeLayers ["L"] [c3A, c3B]).getD noResult).layer.techniques).map
      Technique.comment = some (some "y\n\nx") ∧
    (findTech "T1" ((runMergeLayers ["L"] [c3B, c3A]).getD noResult).layer.techniques).map
      Technique.comment = some (some "x\n\ny") ∧
    (findTech "T1" ((runMergeNavigator ["L"] [c3A, c3B]).getD noResult).layer.techniques).map
      Technique.comment = some (some "y\n\nx") ∧
    (findTech "T1" ((runMergeNavigator ["L"] [c3B, c3A]).getD noResult).layer.techniques).map
      Technique.comment = some (some "x\n\ny") :=
  ⟨rfl, rfl, rfl, rfl⟩

theorem postTechnique_color_keep (t : Technique) :
    (postTechnique false t).color = t.color := by
  dsimp only [postTechnique]
  rw [if_neg Bool.false_ne_true]
  split_ifs <;> rfl

theorem postTechnique_color_reset (t : Technique) :
    (postTechnique true t).color = "" := by
  dsimp only [postTechnique]
  rw [if_pos rfl]
  split_ifs <;> rfl

theorem postTechnique_showSub (r : Bool) (t : Technique) :
    (postTechnique r t).showSubtechniques = false := by
  dsimp only [postTechnique]
  split_ifs <;> rfl

def c4t : Technique :=
  { techniqueID := "T1", score := some 1, comment := some " x ", enabled := some true,
    showSubtechniques := true, color := "c" }

def c4L : Layer := { defaultLayer with techniques := [c4t] }

/-- Counterexample to C4: a technique present in exactly one input
document does not keep its comment verbatim — the post-merge pass strips
it, turning `" x "` into `"x"`. -/
theorem claim_c4_single_source_counterexample :
    (findTech "T1" ((runMergeLayers ["L"] [c4L]).getD noResult).layer.techniques).map
      Technique.comment = some (some "x") ∧
    ¬ ((findTech "T1" ((runMergeLayers ["L"] [c4L]).getD noResult).layer.techniques).map
      Technique.comment = some c4t.comment) := by
  constructor
  · rfl
  · decide

/-- Core of C4: when `T` occurs in exactly one record of exactly one
input document, the merge phase carries that (normalized) record over
unchanged. -/
theorem mergePhase_single {pre post : List Layer} {ld : Layer}
    {dpre dpost : List Technique} {t : Technique} {T : String}
    (hdec : ld.techniques = dpre ++ t :: dpost) (hidT : t.techniqueID = T)
    (hdpre : ∀ u ∈ dpre, u.techniqueID ≠ T) (hdpost : ∀ u ∈ dpost, u.techniqueID ≠ T)
    (hpre : ∀ l ∈ pre, ∀ u ∈ l.techniques, u.techniqueID ≠ T)
    (hpost : ∀ l ∈ post, ∀ u ∈ l.techniques, u.techniqueID ≠ T) :
    findTech T (mergePhase (pre ++ ld :: post)) = some (normalizeTechnique t) := by
  have hldtechs : (normalizeLayer ld).techniques =
      dpre.map normalizeTechnique ++
        normalizeTechnique t :: dpost.map normalizeTechnique := by
    show ld.techniques.map normalizeTechnique = _
    rw [hdec]
    simp
  have hnormne : ∀ (l : Layer), (∀ u ∈ l.techniques, u.techniqueID ≠ T) →
      ∀ u ∈ (normalizeLayer l).techniques, u.techniqueID ≠ T := by
    intro l hl u hu
    rcases List.mem_map.mp hu with ⟨w, hw, rfl⟩
    rw [normalizeTechnique_techniqueID]
    exact hl w hw
  have hdpren : ∀ u ∈ dpre.map normalizeTechnique, u.techniqueID ≠ T := by
    intro u hu
    rcases List.mem_map.mp hu with ⟨w, hw, rfl⟩
    rw [normalizeTechnique_techniqueID]
    exact hdpre w hw
  have hdpostn : ∀ u ∈ dpost.map normalizeTechnique, u.techniqueID ≠ T := by
    intro u hu
    rcases List.mem_map.mp hu with ⟨w, hw, rfl⟩
    rw [normalizeTechnique_techniqueID]
    exact hdpost w hw
  have hidT' : (normalizeTechnique t).techniqueID = T := by
    rw [normalizeTechnique_techniqueID]
    exact hidT
  rcases List.eq_nil_or_concat post with rfl | ⟨pa, z, rfl⟩
  · rw [show pre ++ [ld] = pre ++ [ld] from rfl, mergePhase_concat]
    apply mergeTechniqueLists_single_seed
    · rw [hldtechs, findTech_append_left hdpren, findTech_cons_self hidT']
    · intro tl htl u hu
      rcases List.mem_map.mp htl with ⟨l', hl', rfl⟩
      rcases List.mem_map.mp hl' with ⟨l, hl, rfl⟩
      exact hnormne l (hpre l hl) u hu
  · have hshape : pre ++ ld :: pa.concat z = (pre ++ ld :: pa) ++ [z] := by simp
    rw [hshape, mergePhase_concat]
    have hrest : ((pre ++ ld :: pa).map normalizeLayer).map Layer.techniques =
        (pre.map normalizeLayer).map Layer.techniques ++
          (normalizeLayer ld).techniques ::
            ((pa.map normalizeLayer).map Layer.techniques) := by
      simp
    rw [hrest, hldtechs]
    have hzmem : z ∈ pa.concat z := by
      rw [List.concat_eq_append]
      exact List.mem_append_right _ (List.mem_singleton_self _)
    refine mergeTechniqueLists_single_rest ?_ ?_ hdpren hidT' hdpostn ?_
    · rw [findTech_eq_none]
      exact hnormne z (hpost z hzmem)
    · intro tl htl u hu
      rcases List.mem_map.mp htl with ⟨l', hl', rfl⟩
      rcases List.mem_map.mp hl' with ⟨l, hl, rfl⟩
      exact hnormne l (hpre l hl) u hu
    · intro tl htl u hu
      rcases List.mem_map.mp htl with ⟨l', hl', rfl⟩
      rcases List.mem_map.mp hl' with ⟨l, hl, rfl⟩
      have hlpost : l ∈ pa.concat z := by
        rw [List.concat_eq_append]
        exact List.mem_append_left _ hl
      exact hnormne l (hpost l hlpost) u hu

/-- C4 (amended): a technique present in exactly one input document
reaches the output as its normalized record with `showSubtechniques`
forced to `false`, its comment stripped when it is enabled and
non-empty, and — in the navigator entry point only — its color reset to
the empty string; identifier, score and enabled flag are unchanged. -/
theorem claim_c4_single_source_amended :
    ∀ (names : List String) (pre post : List Layer) (ld : Layer)
      (dpre dpost : List Technique) (t : Technique) (T : String),
      ld.techniques = dpre ++ t :: dpost →
      t.techniqueID = T →
      (∀ u ∈ dpre, u.techniqueID ≠ T) → (∀ u ∈ dpost, u.techniqueID ≠ T) →
      (∀ l ∈ pre, ∀ u ∈ l.techniques, u.techniqueID ≠ T) →
      (∀ l ∈ post, ∀ u ∈ l.techniques, u.techniqueID ≠ T) →
      findTech T
          ((runMergeLayers names (pre ++ ld :: post)).getD noResult).layer.techniques =
        some (postTechnique false (normalizeTechnique t)) ∧
      findTech T
          ((runMergeNavigator names (pre ++ ld :: post)).getD noResult).layer.techniques =
        some (postTechnique true (normalizeTechnique t)) ∧
      (postTechnique false (normalizeTechnique t)).techniqueID = t.techniqueID ∧
      (postTechnique false (normalizeTechnique t)).score = some (t.score.getD 0) ∧
      (postTechnique false (normalizeTechnique t)).enabled = some (t.enabled.getD true) ∧
      (postTechnique false (normalizeTechnique t)).showSubtechniques = false ∧
      (postTechnique false (normalizeTechnique t)).color = t.color ∧
      (postTechnique true (normalizeTechnique t)).color = "" := by
  intro names pre post ld dpre dpost t T hdec hidT hdpre hdpost hpre hpost
  have hne : pre ++ ld :: post ≠ [] := by simp
  have hcore := mergePhase_single hdec hidT hdpre hdpost hpre hpost
  refine ⟨?_, ?_, ?_, ?_, ?_, postTechnique_showSub _ _, ?_, postTechnique_color_reset _⟩
  · rw [runMergeLayers_techniques hne, findTech_map_post, hcore, Option.map_some']
  · rw [runMergeNavigator_techniques hne, findTech_map_post, hcore, Option.map_some']
  · rw [postTechnique_techniqueID, normalizeTechnique_techniqueID]
  · rw [postTechnique_score, normalizeTechnique_score]
  · rw [postTechnique_enabled, normalizeTechnique_enabled]
  · rw [postTechnique_color_keep]
    show (normalizeTechnique t).color = t.color
    rfl

def c4wt : Technique :=
  { techniqueID := "T2", score := some 2, comment := none, enabled := none,
    showSubtechniques := true, color := "c" }

def c4W : Layer := { defaultLayer with techniques := [c4wt] }

/-- Witness for C4 (amended): `T1` occurs only in `c4L`; the output
record is its normalized, post-processed form. -/
theorem claim_c4_single_source_amended_witness :
    findTech "T1" ((runMergeLayers ["L"] [c4L, c4W]).getD noResult).layer.techniques =
      some (postTechnique false (normalizeTechnique c4t)) :=
  (claim_c4_single_source_amended ["L"] [] [c4W] c4L [] [] c4t "T1"
    rfl rfl (by intro u hu; cases hu) (by intro u hu; cases hu)
    (by intro l hl; cases hl) (by decide)).1

theorem idMatchAt_some {s m : List Char} (h : idMatchAt s = some m) :
    idShape m ∧ ∃ r, s = m ++ r := by
  rcases s with _ | ⟨c, _ | ⟨d1, _ | ⟨d2, _ | ⟨d3, _ | ⟨d4, r⟩⟩⟩⟩⟩ <;>
    try exact Option.noConfusion h
  simp only [idMatchAt] at h
  split at h
  · rename_i hcond
    cases h
    simp only [Bool.and_eq_true] at hcond
    exact ⟨⟨c, d1, d2, d3, d4, rfl, hcond.1.1.1.1, hcond.1.1.1.2, hcond.1.1.2,
      hcond.1.2, hcond.2⟩, r, rfl⟩
  · cases h

theorem searchId_some {s m : List Char} (h : searchId s = some m) :
    idShape m ∧ hasSeg m s := by
  induction s with
  | nil => cases h
  | cons c rest ih =>
    rcases hm : idMatchAt (c :: rest) with _ | m'
    · simp only [searchId, hm] at h
      rcases ih h with ⟨hs, p, q, hpq⟩
      exact ⟨hs, c :: p, q, by rw [hpq]; rfl⟩
    · simp only [searchId, hm, Option.some.injEq] at h
      subst h
      rcases idMatchAt_some hm with ⟨hs, r, hr⟩
      exact ⟨hs, [], r, by rw [hr]; rfl⟩

theorem parenMatchAt_some {s m : List Char} (h : parenMatchAt s = some m) :
    idShape m ∧ ∃ r, s = '(' :: m ++ ')' :: r := by
  rcases s with _ | ⟨o, _ | ⟨c, _ | ⟨d1, _ | ⟨d2, _ | ⟨d3, _ | ⟨d4, _ | ⟨p, r⟩⟩⟩⟩⟩⟩⟩ <;>
    try exact Option.noConfusion h
  simp only [parenMatchAt] at h
  split at h
  · rename_i hcond
    cases h
    simp only [Bool.and_eq_true, decide_eq_true_eq] at hcond
    refine ⟨⟨c, d1, d2, d3, d4, rfl, hcond.1.1.1.1.1.2, hcond.1.1.1.1.2,
      hcond.1.1.1.2, hcond.1.1.2, hcond.1.2⟩, r, ?_⟩
    rw [hcond.1.1.1.1.1.1, hcond.2]
    rfl
  · cases h

theorem searchParenId_some {s m : List Char} (h : searchParenId s = some m) :
    idShape m ∧ hasSeg ('(' :: m ++ [')']) s := by
  induction s with
  | nil => cases h
  | cons c rest ih =>
    rcases hm : parenMatchAt (c :: rest) with _ | m'
    · simp only [searchParenId, hm] at h
      rcases ih h with ⟨hs, p, q, hpq⟩
      exact ⟨hs, c :: p, q, by rw [hpq]; rfl⟩
    · simp only [searchParenId, hm, Option.some.injEq] at h
      subst h
      rcases parenMatchAt_some hm with ⟨hs, r, hr⟩
      refine ⟨hs, [], r, ?_⟩
      rw [hr]
      simp

/-- Counterexample to C9: on extraction failure `merge_layers.py` falls
back to the file's base name with its extension kept (`"foo.json"`, not
`"foo"`), and `get_layer_name` does not accept an unparenthesized
match (`"G0012 group"` falls back), so the parentheses are not
optional. -/
theorem claim_c9_naming_resolver_counterexample :
    extractLayerName { defaultLayer with description := "no identifier here" }
        "dir/foo.json" = "foo.json" ∧
    "foo.json" ≠ "foo" ∧
    getLayerName { defaultLayer with name := "G0012 group" } "foo" = "foo" := by
  refine ⟨rfl, ?_, rfl⟩
  decide

/-- C9 (amended): `merge_layers.py` searches only the description for an
unparenthesized `[A-Z][0-9]{4}` and returns the leftmost match, falling
back to the base file name with extension kept; `get_layer_name`
searches only the layer name for the parenthesized pattern, returns it
with parentheses stripped, and falls back to the given label unchanged.
Neither path can fail. -/
theorem claim_c9_naming_resolver_amended :
    (∀ (l : Layer) (f : String) (m : List Char),
      searchId l.description.toList = some m →
      extractLayerName l f = String.mk m ∧ idShape m ∧
        hasSeg m l.description.toList) ∧
    (∀ (l : Layer) (f : String),
      searchId l.description.toList = none → extractLayerName l f = baseName f) ∧
    (∀ (l : Layer) (f : String) (m : List Char),
      searchParenId l.name.toList = some m →
      getLayerName l f = String.mk m ∧ idShape m ∧
        hasSeg ('(' :: m ++ [')']) l.name.toList) ∧
    (∀ (l : Layer) (f : String),
      searchParenId l.name.toList = none → getLayerName l f = f) := by
  refine ⟨?_, ?_, ?_, ?_⟩
  · intro l f m h
    refine ⟨?_, searchId_some h⟩
    unfold extractLayerName
    rw [h]
  · intro l f h
    unfold extractLayerName
    rw [h]
  · intro l f m h
    refine ⟨?_, searchParenId_some h⟩
    unfold getLayerName
    rw [h]
  · intro l f h
    unfold getLayerName
    rw [h]

/-- Witness for C9 (amended): a successful extraction from a concrete
description, and a concrete fallback. -/
theorem claim_c9_naming_resolver_amended_witness :
    extractLayerName { defaultLayer with description := "uses G0012 tools" }
        "x.json" = String.mk ['G', '0', '0', '1', '2'] ∧
    getLayerName { defaultLayer with name := "plain name" } "fb" = "fb" :=
  ⟨(claim_c9_naming_resolver_amended.1
      { defaultLayer with description := "uses G0012 tools" } "x.json"
      ['G', '0', '0', '1', '2'] rfl).1,
    claim_c9_naming_resolver_amended.2.2.2
      { defaultLayer with name := "plain name" } "fb" rfl⟩

theorem postTechnique_comment_irrel (t : Technique) :
    (postTechnique true t).comment = (postTechnique false t).comment := by
  dsimp only [postTechnique]
  rw [if_pos rfl, if_neg Bool.false_ne_true]
  split_ifs <;> rfl

theorem techProj_post (t : Technique) :
    techProj (postTechnique true t) = techProj (postTechnique false t) := by
  unfold techProj
  rw [postTechnique_techniqueID, postTechnique_techniqueID, postTechnique_score,
    postTechnique_score, postTechnique_enabled, postTechnique_enabled,
    postTechnique_showSub, postTechnique_showSub, postTechnique_comment_irrel]

theorem map_techProj_post (ts : List Technique) :
    (ts.map (postTechnique true)).map techProj =
      (ts.map (postTechnique false)).map techProj := by
  induction ts with
  | nil => rfl
  | cons t ts ih =>
    rw [List.map_cons, List.map_cons, List.map_cons, List.map_cons, ih,
      techProj_post t]

/-- C10: the two entry points are the same merge algorithm: on the same
input they succeed or decline together, agree on the merged technique
identifiers, scores, comments, enabled and `showSubtechniques` flags and
on the disabled count, and their maxima differ exactly by the `1` vs `0`
seed; the per-record difference is confined to the color reset. -/
theorem claim_c10_two_pipelines_equivalent :
    ∀ (names : List String) (ls : List Layer),
      (runMergeLayers names ls = none ↔ runMergeNavigator names ls = none) ∧
      (ls ≠ [] →
        ((runMergeLayers names ls).getD noResult).layer.techniques.map techProj =
          ((runMergeNavigator names ls).getD noResult).layer.techniques.map techProj ∧
        ((runMergeLayers names ls).getD noResult).disabledCount =
          ((runMergeNavigator names ls).getD noResult).disabledCount ∧
        ((runMergeLayers names ls).getD noResult).maxScore =
          max 1 ((runMergeNavigator names ls).getD noResult).maxScore) := by
  intro names ls
  constructor
  · rcases ls with _ | ⟨l, ls'⟩
    · exact Iff.rfl
    · constructor
      · intro h
        rw [runMergeLayers_eq (List.cons_ne_nil _ _)] at h
        cases h
      · intro h
        rw [runMergeNavigator_eq (List.cons_ne_nil _ _)] at h
        cases h
  · intro hne
    refine ⟨?_, ?_, ?_⟩
    · rw [runMergeLayers_techniques hne, runMergeNavigator_techniques hne,
        map_techProj_post]
    · rw [runMergeLayers_disabledCount hne, runMergeNavigator_disabledCount hne]
    · rw [runMergeLayers_maxScore hne, runMergeNavigator_maxScore hne]
      have h10 : (1 : Int) = max 1 0 := by decide
      nth_rewrite 1 [h10]
      rw [maxFold_max_left]

/-- Witness for C10 on a concrete two-layer input. -/
theorem claim_c10_two_pipelines_equivalent_witness :
    ((runMergeLayers ["L"] [c1A, c2B]).getD noResult).maxScore =
      max 1 ((runMergeNavigator ["L"] [c1A, c2B]).getD noResult).maxScore :=
  ((claim_c10_two_pipelines_equivalent ["L"] [c1A, c2B]).2
    (List.cons_ne_nil _ _)).2.2
